import Mathlib

/-!
# oot_bitset

A shallow embedding of `oot_bitset.h`: bit flags packed into an array of
`uint16_t` words and addressed by a 16-bit flag id (upper 12 bits: word
index, lower 4 bits: bit index).

Conventions of the embedding
* a `uint16_t` value is a `Nat` below `65536`; a conversion to `uint16_t` is
  `% 65536`, a conversion to `unsigned int` is `% 4294967296`;
* the caller's array `uint16_t *set` is a `List Nat` (word 0 first); an access
  outside the array is undefined in C and is `none` here;
* an operation that receives the array returns the array as it is after the
  call (explicit state passing).
-/

namespace OotBitset

/-! ## Machine integers -/

/-- Number of values of a `uint16_t`. -/
def U16_MOD : Nat := 65536

/-- Number of values of an `unsigned int` (32 bits). -/
def UINT_MOD : Nat := 4294967296

/-- Conversion of a non-negative C integer to `uint16_t`. -/
def to_u16 (x : Nat) : Nat := x % U16_MOD

/-- Conversion of a (possibly negative) C `int` to `uint16_t`: reduction
modulo `65536` into `0..65535`. -/
def int_to_u16 (x : Int) : Nat := (x % (U16_MOD : Int)).toNat

/-- The C operator `~` on an `int`: `~x = -x - 1`. -/
def int_not (x : Int) : Int := -x - 1

/-- A storage whose every word is a `uint16_t` value. -/
def is_u16_array (set : List Nat) : Prop := ∀ w ∈ set, w < U16_MOD

instance (set : List Nat) : Decidable (is_u16_array set) := by
  unfold is_u16_array; infer_instance

/-! ## The functions of `oot_bitset.h` -/

/-- Source: `static inline uint16_t bitset_index(uint16_t flag) { return flag >> 4; }` -/
def bitset_index (flag : Nat) : Nat := to_u16 (flag >>> 4)

/-- Source: `static inline uint16_t bitset_mask(uint16_t flag)
{ return (uint16_t)(1u << (flag & 0xF)); }`: the shift is done in
`unsigned int`, the result is converted to `uint16_t`. -/
def bitset_mask (flag : Nat) : Nat := to_u16 ((1 <<< (flag &&& 0xF)) % UINT_MOD)

/-- Source: `#define bitset_word(set, flag) ((set)[bitset_index(flag)])`, read as a
value. -/
def bitset_word (set : List Nat) (flag : Nat) : Option Nat :=
  set[bitset_index flag]?

/-- Assignment `bitset_word(set, flag) = v`: the macro used as the target of an
assignment; the stored value is converted to `uint16_t`. -/
def bitset_word_assign (set : List Nat) (flag : Nat) (v : Nat) : Option (List Nat) :=
  if bitset_index flag < set.length then
    some (set.set (bitset_index flag) (to_u16 v))
  else
    none

/-- Source: `static inline bool bitset_get(uint16_t *set, uint16_t flag)
{ return (bitset_word(set, flag) & bitset_mask(flag)) != 0; }`.
Returns the result together with the storage after the call. -/
def bitset_get (set : List Nat) (flag : Nat) : Option (Bool × List Nat) :=
  match bitset_word set flag with
  | none => none
  | some w => some ((w &&& bitset_mask flag) != 0, set)

/-- Source: `static inline void bitset_set(uint16_t *set, uint16_t flag)
{ bitset_word(set, flag) |= bitset_mask(flag); }` -/
def bitset_set (set : List Nat) (flag : Nat) : Option (List Nat) :=
  match bitset_word set flag with
  | none => none
  | some w => bitset_word_assign set flag (w ||| bitset_mask flag)

/-- Source: `static inline void bitset_clear(uint16_t *set, uint16_t flag)
{ bitset_word(set, flag) &= (uint16_t)~bitset_mask(flag); }`: the mask is
promoted to `int`, complemented there, and converted back to `uint16_t`. -/
def bitset_clear (set : List Nat) (flag : Nat) : Option (List Nat) :=
  match bitset_word set flag with
  | none => none
  | some w =>
    bitset_word_assign set flag (w &&& int_to_u16 (int_not (bitset_mask flag : Int)))

/-! ## Arithmetic of the encoding -/

theorem bitset_index_eq_div (F : Nat) (hF : F < 65536) : bitset_index F = F / 16 := by
  unfold bitset_index to_u16 U16_MOD
  rw [Nat.shiftRight_eq_div_pow]
  have : F / 2 ^ 4 < 65536 := by omega
  rw [Nat.mod_eq_of_lt this]; norm_num

theorem flag_and_eq_mod (F : Nat) : F &&& 0xF = F % 16 := by
  have h := Nat.and_pow_two_sub_one_eq_mod F 4
  norm_num at h
  exact h

theorem bitset_mask_eq_pow (F : Nat) : bitset_mask F = 2 ^ (F % 16) := by
  unfold bitset_mask to_u16 U16_MOD UINT_MOD
  rw [flag_and_eq_mod, Nat.one_shiftLeft]
  have hk : F % 16 < 16 := Nat.mod_lt _ (by norm_num)
  have h1 : 2 ^ (F % 16) < 2 ^ 16 := Nat.pow_lt_pow_right (by norm_num) hk
  have h2 : 2 ^ (F % 16) < 4294967296 := by omega
  have h3 : 2 ^ (F % 16) < 65536 := by omega
  rw [Nat.mod_eq_of_lt h2, Nat.mod_eq_of_lt h3]

/-- The converted complement of a `uint16_t` value is its 16-bit complement. -/
theorem int_to_u16_not (m : Nat) (hm : m < 65536) :
    int_to_u16 (int_not (m : Int)) = 65535 - m := by
  unfold int_to_u16 int_not U16_MOD
  have h2 : (-(m : Int) - 1) % ((65536 : Nat) : Int) = ((65535 - m : Nat) : Int) := by
    omega
  rw [h2]; simp

/-! ## Word-level behaviour, bit by bit -/

theorem testBit_to_u16 (x j : Nat) :
    (to_u16 x).testBit j = (decide (j < 16) && x.testBit j) := by
  unfold to_u16 U16_MOD
  have h : (65536 : Nat) = 2 ^ 16 := by norm_num
  rw [h, Nat.testBit_mod_two_pow]

theorem to_u16_of_lt (x : Nat) (h : x < 65536) : to_u16 x = x := by
  unfold to_u16 U16_MOD
  exact Nat.mod_eq_of_lt h

theorem testBit_of_lt_u16 (w j : Nat) (hw : w < 65536) (hj : 16 ≤ j) :
    w.testBit j = false := by
  apply Nat.testBit_lt_two_pow
  have h1 : 2 ^ 16 ≤ 2 ^ j := Nat.pow_le_pow_right (by norm_num) hj
  have h2 : (2 : Nat) ^ 16 = 65536 := by norm_num
  omega

/-- The test of `bitset_get` on a word reads bit `F % 16` of the word. -/
theorem and_mask_ne_zero (w F : Nat) :
    ((w &&& bitset_mask F) != 0) = w.testBit (F % 16) := by
  rw [bitset_mask_eq_pow]
  cases hb : w.testBit (F % 16)
  · have hz : w &&& 2 ^ (F % 16) = 0 := by
      apply Nat.eq_of_testBit_eq
      intro j
      rw [Nat.testBit_and, Nat.testBit_two_pow, Nat.zero_testBit]
      by_cases hj : F % 16 = j
      · subst hj; simp [hb]
      · simp [hj]
    simp [hz]
  · have hne : w &&& 2 ^ (F % 16) ≠ 0 := by
      intro hz
      have h1 : (w &&& 2 ^ (F % 16)).testBit (F % 16) = true := by
        rw [Nat.testBit_and, Nat.testBit_two_pow_self, hb]; rfl
      rw [hz, Nat.zero_testBit] at h1
      exact Bool.noConfusion h1
    simp [hne]

/-- Bits of the word stored by `bitset_set`. -/
theorem testBit_set_word (w F j : Nat) :
    (to_u16 (w ||| bitset_mask F)).testBit j
      = (decide (j < 16) && (w.testBit j || decide (F % 16 = j))) := by
  rw [testBit_to_u16, bitset_mask_eq_pow, Nat.testBit_or, Nat.testBit_two_pow]

/-- The converted complement of the mask, as a natural number. -/
theorem not_mask_eq (F : Nat) :
    int_to_u16 (int_not (bitset_mask F : Int)) = 2 ^ 16 - (2 ^ (F % 16) + 1) := by
  have hk : F % 16 < 16 := Nat.mod_lt _ (by norm_num)
  have h1 : 2 ^ (F % 16) < 2 ^ 16 := Nat.pow_lt_pow_right (by norm_num) hk
  have h2 : (2 : Nat) ^ 16 = 65536 := by norm_num
  rw [bitset_mask_eq_pow, int_to_u16_not _ (by omega)]
  omega

/-- Bits of the word stored by `bitset_clear`. -/
theorem testBit_clear_word (w F j : Nat) :
    (to_u16 (w &&& int_to_u16 (int_not (bitset_mask F : Int)))).testBit j
      = (decide (j < 16) && (w.testBit j && !decide (F % 16 = j))) := by
  have hk : F % 16 < 16 := Nat.mod_lt _ (by norm_num)
  have h1 : 2 ^ (F % 16) < 2 ^ 16 := Nat.pow_lt_pow_right (by norm_num) hk
  rw [testBit_to_u16, not_mask_eq, Nat.testBit_and, Nat.testBit_two_pow_sub_succ h1,
    Nat.testBit_two_pow]
  cases w.testBit j <;> cases decide (j < 16) <;> simp

/-! ## Storage-level behaviour -/

theorem bitset_word_eq (S : List Nat) (F : Nat) (h : bitset_index F < S.length) :
    bitset_word S F = some (S[bitset_index F]) := by
  unfold bitset_word
  exact List.getElem?_eq_getElem h

theorem bitset_get_eq (S : List Nat) (F : Nat) (h : bitset_index F < S.length) :
    bitset_get S F = some ((S[bitset_index F]).testBit (F % 16), S) := by
  unfold bitset_get
  rw [bitset_word_eq S F h]
  simp only [and_mask_ne_zero]

theorem bitset_set_eq (S : List Nat) (F : Nat) (h : bitset_index F < S.length) :
    bitset_set S F
      = some (S.set (bitset_index F) (to_u16 (S[bitset_index F] ||| bitset_mask F))) := by
  unfold bitset_set
  rw [bitset_word_eq S F h]
  simp only [bitset_word_assign, h, if_true]

theorem bitset_clear_eq (S : List Nat) (F : Nat) (h : bitset_index F < S.length) :
    bitset_clear S F
      = some (S.set (bitset_index F)
          (to_u16 (S[bitset_index F] &&& int_to_u16 (int_not (bitset_mask F : Int))))) := by
  unfold bitset_clear
  rw [bitset_word_eq S F h]
  simp only [bitset_word_assign, h, if_true]

/-- Two different 16-bit flags in the same word have different bit indices. -/
theorem bit_ne_of_flag_ne (F1 F2 : Nat) (h1 : F1 < 65536) (h2 : F2 < 65536)
    (hne : F1 ≠ F2) (hi : bitset_index F1 = bitset_index F2) : F1 % 16 ≠ F2 % 16 := by
  rw [bitset_index_eq_div F1 h1, bitset_index_eq_div F2 h2] at hi
  omega

theorem shiftRight_four_eq_index (F : Nat) (hF : F < 65536) : F >>> 4 = bitset_index F := by
  rw [bitset_index_eq_div F hF, Nat.shiftRight_eq_div_pow]

/-- Reading a flag from a storage whose word `bitset_index F` was replaced. -/
theorem bitset_get_set_same (S : List Nat) (F v : Nat) (h : bitset_index F < S.length) :
    bitset_get (S.set (bitset_index F) v) F
      = some (v.testBit (F % 16), S.set (bitset_index F) v) := by
  have h2 : bitset_index F < (S.set (bitset_index F) v).length := by
    rw [List.length_set]; exact h
  rw [bitset_get_eq _ F h2, List.getElem_set_self]

/-! ## C1: round trip on fresh storage -/

/-- C1. On an all-zero storage `S` and a 16-bit flag `F` whose word index is
inside `S`: `bitset_get` answers false (and leaves `S` as it is); `bitset_set`
succeeds and `bitset_get` then answers true; a following `bitset_clear`
succeeds and `bitset_get` answers false again. -/
theorem round_trip_fresh (S : List Nat) (F : Nat) (hz : ∀ w ∈ S, w = 0)
    (_hF : F < 65536) (h : bitset_index F < S.length) :
    bitset_get S F = some (false, S) ∧
    ∃ S1, bitset_set S F = some S1 ∧ bitset_get S1 F = some (true, S1) ∧
      ∃ S2, bitset_clear S1 F = some S2 ∧ bitset_get S2 F = some (false, S2) := by
  have hk : F % 16 < 16 := Nat.mod_lt _ (by norm_num)
  have hw : S[bitset_index F] = 0 := hz _ (List.getElem_mem h)
  refine ⟨?_, _, bitset_set_eq S F h, ?_, ?_⟩
  · rw [bitset_get_eq S F h, hw, Nat.zero_testBit]
  · rw [bitset_get_set_same S F _ h, testBit_set_word]
    simp [hk]
  · have h1 : bitset_index F < (S.set (bitset_index F)
        (to_u16 (S[bitset_index F] ||| bitset_mask F))).length := by
      rw [List.length_set]; exact h
    refine ⟨_, bitset_clear_eq _ F h1, ?_⟩
    rw [List.set_set, bitset_get_set_same S F _ h, testBit_clear_word]
    simp

theorem round_trip_fresh_witness :
    (∀ w ∈ [0, 0], w = 0) ∧ 0x1A < 65536 ∧ bitset_index 0x1A < [0, 0].length ∧
    bitset_get [0, 0] 0x1A = some (false, [0, 0]) ∧
    ∃ S1, bitset_set [0, 0] 0x1A = some S1 ∧ bitset_get S1 0x1A = some (true, S1) ∧
      ∃ S2, bitset_clear S1 0x1A = some S2 ∧ bitset_get S2 0x1A = some (false, S2) :=
  ⟨by decide, by decide, by decide,
    round_trip_fresh [0, 0] 0x1A (by decide) (by decide) (by decide)⟩

/-- Reading a flag whose word was not the one replaced. -/
theorem bitset_get_set_other (S : List Nat) (i F v : Nat) (h : bitset_index F < S.length)
    (hne : i ≠ bitset_index F) :
    bitset_get (S.set i v) F = some ((S[bitset_index F]).testBit (F % 16), S.set i v) := by
  have h2 : bitset_index F < (S.set i v).length := by
    rw [List.length_set]; exact h
  rw [bitset_get_eq _ F h2, List.getElem_set_ne hne]

/-! ## C2: no cross-talk -/

/-- C2. For two different 16-bit flags `F1`, `F2` whose word indices are
inside `S` (same word or not): `bitset_set S F1` succeeds and `bitset_get`
gives for `F2` the same answer after it as before it, and likewise for
`bitset_clear S F1`. -/
theorem no_cross_talk (S : List Nat) (F1 F2 : Nat) (h1 : F1 < 65536) (h2 : F2 < 65536)
    (hne : F1 ≠ F2) (hi1 : bitset_index F1 < S.length) (hi2 : bitset_index F2 < S.length) :
    (∃ S1 b, bitset_set S F1 = some S1 ∧
      bitset_get S F2 = some (b, S) ∧ bitset_get S1 F2 = some (b, S1)) ∧
    (∃ S1 b, bitset_clear S F1 = some S1 ∧
      bitset_get S F2 = some (b, S) ∧ bitset_get S1 F2 = some (b, S1)) := by
  have hk : F2 % 16 < 16 := Nat.mod_lt _ (by norm_num)
  by_cases hi : bitset_index F1 = bitset_index F2
  · have hb : F1 % 16 ≠ F2 % 16 := bit_ne_of_flag_ne F1 F2 h1 h2 hne hi
    refine ⟨⟨_, _, bitset_set_eq S F1 hi1, bitset_get_eq S F2 hi2, ?_⟩,
      ⟨_, _, bitset_clear_eq S F1 hi1, bitset_get_eq S F2 hi2, ?_⟩⟩
    · simp only [hi]
      rw [bitset_get_set_same S F2 _ hi2, testBit_set_word]
      simp [hk, hb]
    · simp only [hi]
      rw [bitset_get_set_same S F2 _ hi2, testBit_clear_word]
      simp [hk, hb]
  · exact ⟨⟨_, _, bitset_set_eq S F1 hi1, bitset_get_eq S F2 hi2,
        bitset_get_set_other S _ F2 _ hi2 hi⟩,
      ⟨_, _, bitset_clear_eq S F1 hi1, bitset_get_eq S F2 hi2,
        bitset_get_set_other S _ F2 _ hi2 hi⟩⟩

theorem no_cross_talk_witness :
    (∃ S1 b, bitset_set [0x0004, 0x0401] 0x1A = some S1 ∧
      bitset_get [0x0004, 0x0401] 0x10 = some (b, [0x0004, 0x0401]) ∧
      bitset_get S1 0x10 = some (b, S1)) ∧
    (∃ S1 b, bitset_clear [0x0004, 0x0401] 0x1A = some S1 ∧
      bitset_get [0x0004, 0x0401] 0x10 = some (b, [0x0004, 0x0401]) ∧
      bitset_get S1 0x10 = some (b, S1)) :=
  no_cross_talk [0x0004, 0x0401] 0x1A 0x10 (by decide) (by decide) (by decide)
    (by decide) (by decide)

/-! ## C3: postcondition of `bitset_set` -/

/-- C3. For a storage `S` of 16-bit words and a 16-bit flag `F` with
`F >> 4 < length S`: `bitset_set S F` succeeds with a storage of the same
length; its word at index `F >> 4` is the old word OR `2 ^ (F & 0xF)`, in which
bit `F & 0xF` is 1 and every other bit has its old value; every word at another
index is the word of `S` at that index. -/
theorem bitset_set_post (S : List Nat) (F : Nat) (hS : is_u16_array S) (hF : F < 65536)
    (h : F >>> 4 < S.length) :
    ∃ S1 w, bitset_set S F = some S1 ∧ S[F >>> 4]? = some w ∧
      S1.length = S.length ∧
      S1[F >>> 4]? = some (w ||| 2 ^ (F &&& 0xF)) ∧
      (w ||| 2 ^ (F &&& 0xF)).testBit (F &&& 0xF) = true ∧
      (∀ j, j ≠ F &&& 0xF → (w ||| 2 ^ (F &&& 0xF)).testBit j = w.testBit j) ∧
      ∀ i, i ≠ F >>> 4 → S1[i]? = S[i]? := by
  rw [shiftRight_four_eq_index F hF] at h ⊢
  rw [flag_and_eq_mod]
  have hk : F % 16 < 16 := Nat.mod_lt _ (by norm_num)
  have hw : S[bitset_index F] < 65536 := hS _ (List.getElem_mem h)
  have hor : to_u16 (S[bitset_index F] ||| bitset_mask F)
      = S[bitset_index F] ||| 2 ^ (F % 16) := by
    apply Nat.eq_of_testBit_eq
    intro j
    rw [testBit_set_word, Nat.testBit_or, Nat.testBit_two_pow]
    by_cases hj : j < 16
    · simp [hj]
    · have hwj := testBit_of_lt_u16 _ j hw (by omega)
      have hjk : F % 16 ≠ j := by omega
      simp [hj, hwj, hjk]
  refine ⟨_, S[bitset_index F], bitset_set_eq S F h, List.getElem?_eq_getElem h,
    List.length_set _ _ _, ?_, ?_, ?_, ?_⟩
  · rw [hor, List.getElem?_set_self h]
  · rw [Nat.testBit_or, Nat.testBit_two_pow_self, Bool.or_true]
  · intro j hj
    have hjk : F % 16 ≠ j := fun e => hj e.symm
    rw [Nat.testBit_or, Nat.testBit_two_pow]
    simp [hjk]
  · intro i hi
    exact List.getElem?_set_ne (fun e => hi e.symm)

theorem bitset_set_post_witness :
    is_u16_array [0x0004, 0x0401] ∧ 0x1A < 65536 ∧ 0x1A >>> 4 < [0x0004, 0x0401].length ∧
    ∃ S1 w, bitset_set [0x0004, 0x0401] 0x1A = some S1 ∧
      [0x0004, 0x0401][0x1A >>> 4]? = some w ∧
      S1.length = [0x0004, 0x0401].length ∧
      S1[0x1A >>> 4]? = some (w ||| 2 ^ (0x1A &&& 0xF)) ∧
      (w ||| 2 ^ (0x1A &&& 0xF)).testBit (0x1A &&& 0xF) = true ∧
      (∀ j, j ≠ 0x1A &&& 0xF → (w ||| 2 ^ (0x1A &&& 0xF)).testBit j = w.testBit j) ∧
      ∀ i, i ≠ 0x1A >>> 4 → S1[i]? = [0x0004, 0x0401][i]? :=
  ⟨by decide, by decide, by decide,
    bitset_set_post [0x0004, 0x0401] 0x1A (by decide) (by decide) (by decide)⟩

/-! ## C4: postcondition of `bitset_clear` -/

/-- C4. For a storage `S` of 16-bit words and a 16-bit flag `F` with
`F >> 4 < length S`: `bitset_clear S F` succeeds with a storage of the same
length; its word at index `F >> 4` is the old word AND NOT `2 ^ (F & 0xF)`
(`Nat.ldiff`, which is also the old word AND the 16-bit complement
`0xFFFF - 2 ^ (F & 0xF)`), in which bit `F & 0xF` is 0 and every other bit has
its old value; every word at another index is the word of `S` at that index. -/
theorem bitset_clear_post (S : List Nat) (F : Nat) (hS : is_u16_array S) (hF : F < 65536)
    (h : F >>> 4 < S.length) :
    ∃ S1 w, bitset_clear S F = some S1 ∧ S[F >>> 4]? = some w ∧
      S1.length = S.length ∧
      S1[F >>> 4]? = some (Nat.ldiff w (2 ^ (F &&& 0xF))) ∧
      Nat.ldiff w (2 ^ (F &&& 0xF)) = w &&& (0xFFFF - 2 ^ (F &&& 0xF)) ∧
      (Nat.ldiff w (2 ^ (F &&& 0xF))).testBit (F &&& 0xF) = false ∧
      (∀ j, j ≠ F &&& 0xF → (Nat.ldiff w (2 ^ (F &&& 0xF))).testBit j = w.testBit j) ∧
      ∀ i, i ≠ F >>> 4 → S1[i]? = S[i]? := by
  rw [shiftRight_four_eq_index F hF] at h ⊢
  rw [flag_and_eq_mod]
  have hk : F % 16 < 16 := Nat.mod_lt _ (by norm_num)
  have hp : 2 ^ (F % 16) < 2 ^ 16 := Nat.pow_lt_pow_right (by norm_num) hk
  have hw : S[bitset_index F] < 65536 := hS _ (List.getElem_mem h)
  have hcl : to_u16 (S[bitset_index F] &&& int_to_u16 (int_not (bitset_mask F : Int)))
      = Nat.ldiff S[bitset_index F] (2 ^ (F % 16)) := by
    apply Nat.eq_of_testBit_eq
    intro j
    rw [testBit_clear_word, Nat.testBit_ldiff, Nat.testBit_two_pow]
    by_cases hj : j < 16
    · simp [hj]
    · have hwj := testBit_of_lt_u16 _ j hw (by omega)
      simp [hj, hwj]
  have hand : Nat.ldiff S[bitset_index F] (2 ^ (F % 16))
      = S[bitset_index F] &&& (0xFFFF - 2 ^ (F % 16)) := by
    have e : 0xFFFF - 2 ^ (F % 16) = 2 ^ 16 - (2 ^ (F % 16) + 1) := by omega
    apply Nat.eq_of_testBit_eq
    intro j
    rw [e, Nat.testBit_ldiff, Nat.testBit_and, Nat.testBit_two_pow_sub_succ hp,
      Nat.testBit_two_pow]
    by_cases hj : j < 16
    · simp [hj]
    · have hwj := testBit_of_lt_u16 _ j hw (by omega)
      simp [hj, hwj]
  refine ⟨_, S[bitset_index F], bitset_clear_eq S F h, List.getElem?_eq_getElem h,
    List.length_set _ _ _, ?_, hand, ?_, ?_, ?_⟩
  · rw [hcl, List.getElem?_set_self h]
  · rw [Nat.testBit_ldiff, Nat.testBit_two_pow_self]; simp
  · intro j hj
    have hjk : F % 16 ≠ j := fun e => hj e.symm
    rw [Nat.testBit_ldiff, Nat.testBit_two_pow]
    simp [hjk]
  · intro i hi
    exact List.getElem?_set_ne (fun e => hi e.symm)

theorem bitset_clear_post_witness :
    is_u16_array [0x0004, 0x0401] ∧ 0x1A < 65536 ∧ 0x1A >>> 4 < [0x0004, 0x0401].length ∧
    ∃ S1 w, bitset_clear [0x0004, 0x0401] 0x1A = some S1 ∧
      [0x0004, 0x0401][0x1A >>> 4]? = some w ∧
      S1.length = [0x0004, 0x0401].length ∧
      S1[0x1A >>> 4]? = some (Nat.ldiff w (2 ^ (0x1A &&& 0xF))) ∧
      Nat.ldiff w (2 ^ (0x1A &&& 0xF)) = w &&& (0xFFFF - 2 ^ (0x1A &&& 0xF)) ∧
      (Nat.ldiff w (2 ^ (0x1A &&& 0xF))).testBit (0x1A &&& 0xF) = false ∧
      (∀ j, j ≠ 0x1A &&& 0xF →
        (Nat.ldiff w (2 ^ (0x1A &&& 0xF))).testBit j = w.testBit j) ∧
      ∀ i, i ≠ 0x1A >>> 4 → S1[i]? = [0x0004, 0x0401][i]? :=
  ⟨by decide, by decide, by decide,
    bitset_clear_post [0x0004, 0x0401] 0x1A (by decide) (by decide) (by decide)⟩

/-! ## C5: reference definition of `bitset_get` -/

/-- C5. For a storage `S` and a 16-bit flag `F` with `F >> 4 < length S`:
`bitset_get S F` returns `(S[F >> 4] & bitset_mask F) != 0` and leaves `S`
unchanged, and this result is true exactly when bit `F mod 16` (bit 0 the
least significant) of the word `S[F / 16]` is 1, that is when
`(S[F / 16] / 2 ^ (F mod 16)) mod 2 = 1`. -/
theorem bitset_get_reference (S : List Nat) (F : Nat) (hF : F < 65536)
    (h : F >>> 4 < S.length) :
    ∃ w, S[F >>> 4]? = some w ∧ S[F / 16]? = some w ∧
      bitset_get S F = some ((w &&& bitset_mask F) != 0, S) ∧
      (((w &&& bitset_mask F) != 0) = true ↔ (w / 2 ^ (F % 16)) % 2 = 1) ∧
      (((w &&& bitset_mask F) != 0) = true ↔ w.testBit (F % 16) = true) := by
  rw [shiftRight_four_eq_index F hF] at h ⊢
  refine ⟨S[bitset_index F], List.getElem?_eq_getElem h, ?_, ?_, ?_, ?_⟩
  · rw [← bitset_index_eq_div F hF]; exact List.getElem?_eq_getElem h
  · rw [and_mask_ne_zero]; exact bitset_get_eq S F h
  · rw [and_mask_ne_zero, Nat.testBit_to_div_mod]; simp
  · rw [and_mask_ne_zero]

theorem bitset_get_reference_witness :
    0x1A < 65536 ∧ 0x1A >>> 4 < [0x0004, 0x0401].length ∧
    ∃ w, [0x0004, 0x0401][0x1A >>> 4]? = some w ∧ [0x0004, 0x0401][0x1A / 16]? = some w ∧
      bitset_get [0x0004, 0x0401] 0x1A = some ((w &&& bitset_mask 0x1A) != 0, [0x0004, 0x0401]) ∧
      (((w &&& bitset_mask 0x1A) != 0) = true ↔ (w / 2 ^ (0x1A % 16)) % 2 = 1) ∧
      (((w &&& bitset_mask 0x1A) != 0) = true ↔ w.testBit (0x1A % 16) = true) :=
  ⟨by decide, by decide, bitset_get_reference [0x0004, 0x0401] 0x1A (by decide) (by decide)⟩

/-! ## Composition of two writes -/

theorem bitset_set_of_word (S : List Nat) (F w : Nat) (hw : S[bitset_index F]? = some w) :
    bitset_set S F = some (S.set (bitset_index F) (to_u16 (w ||| bitset_mask F))) := by
  have h : bitset_index F < S.length := (List.getElem?_eq_some.mp hw).1
  unfold bitset_set bitset_word
  rw [hw]
  simp only [bitset_word_assign, h, if_true]

theorem bitset_clear_of_word (S : List Nat) (F w : Nat) (hw : S[bitset_index F]? = some w) :
    bitset_clear S F = some (S.set (bitset_index F)
      (to_u16 (w &&& int_to_u16 (int_not (bitset_mask F : Int))))) := by
  have h : bitset_index F < S.length := (List.getElem?_eq_some.mp hw).1
  unfold bitset_clear bitset_word
  rw [hw]
  simp only [bitset_word_assign, h, if_true]

/-- Two operations that each rewrite the word of their flag commute when the two
word functions commute on a shared word. -/
theorem write_write_commute (op1 op2 : List Nat → Nat → Option (List Nat))
    (f1 f2 : Nat → Nat → Nat)
    (spec1 : ∀ S F w, S[bitset_index F]? = some w →
      op1 S F = some (S.set (bitset_index F) (f1 w F)))
    (spec2 : ∀ S F w, S[bitset_index F]? = some w →
      op2 S F = some (S.set (bitset_index F) (f2 w F)))
    (S : List Nat) (F1 F2 : Nat)
    (hi1 : bitset_index F1 < S.length) (hi2 : bitset_index F2 < S.length)
    (hword : bitset_index F1 = bitset_index F2 →
      ∀ w, f2 (f1 w F1) F2 = f1 (f2 w F2) F1) :
    ∃ T, (op1 S F1).bind (fun S1 => op2 S1 F2) = some T ∧
      (op2 S F2).bind (fun S2 => op1 S2 F1) = some T := by
  have hw1 : S[bitset_index F1]? = some S[bitset_index F1] := List.getElem?_eq_getElem hi1
  have hw2 : S[bitset_index F2]? = some S[bitset_index F2] := List.getElem?_eq_getElem hi2
  rw [spec1 S F1 _ hw1, spec2 S F2 _ hw2, Option.some_bind, Option.some_bind]
  by_cases hi : bitset_index F1 = bitset_index F2
  · have a1 : (S.set (bitset_index F1) (f1 S[bitset_index F1] F1))[bitset_index F2]?
        = some (f1 S[bitset_index F1] F1) := by
      rw [← hi]; exact List.getElem?_set_self hi1
    have a2 : (S.set (bitset_index F2) (f2 S[bitset_index F2] F2))[bitset_index F1]?
        = some (f2 S[bitset_index F2] F2) := by
      rw [hi]; exact List.getElem?_set_self hi2
    rw [spec2 _ F2 _ a1, spec1 _ F1 _ a2]
    refine ⟨_, rfl, ?_⟩
    have e : S[bitset_index F2] = S[bitset_index F1] := by simp only [hi]
    rw [e, hword hi]
    simp only [hi, List.set_set]
  · have a1 : (S.set (bitset_index F1) (f1 S[bitset_index F1] F1))[bitset_index F2]?
        = some S[bitset_index F2] := by
      rw [List.getElem?_set_ne hi]; exact hw2
    have a2 : (S.set (bitset_index F2) (f2 S[bitset_index F2] F2))[bitset_index F1]?
        = some S[bitset_index F1] := by
      rw [List.getElem?_set_ne (fun e => hi e.symm)]; exact hw1
    rw [spec2 _ F2 _ a1, spec1 _ F1 _ a2]
    exact ⟨_, rfl, congrArg some (List.set_comm _ _ _ (fun e => hi e.symm))⟩

/-! ## C6: idempotence -/

/-- C6. For a storage `S` and a 16-bit flag `F` whose word index is inside `S`:
`bitset_set S F` succeeds with some `S1` and `bitset_set S1 F` is `S1` again;
`bitset_clear S F` succeeds with some `S1` and `bitset_clear S1 F` is `S1`
again. -/
theorem set_clear_idempotent (S : List Nat) (F : Nat) (_hF : F < 65536)
    (h : bitset_index F < S.length) :
    (∃ S1, bitset_set S F = some S1 ∧ bitset_set S1 F = some S1) ∧
    (∃ S1, bitset_clear S F = some S1 ∧ bitset_clear S1 F = some S1) := by
  refine ⟨⟨_, bitset_set_eq S F h, ?_⟩, ⟨_, bitset_clear_eq S F h, ?_⟩⟩
  · rw [bitset_set_of_word _ F _ (List.getElem?_set_self h), List.set_set]
    congr 2
    apply Nat.eq_of_testBit_eq
    intro j
    rw [testBit_set_word, testBit_set_word]
    cases S[bitset_index F].testBit j <;> cases decide (j < 16) <;>
      cases decide (F % 16 = j) <;> rfl
  · rw [bitset_clear_of_word _ F _ (List.getElem?_set_self h), List.set_set]
    congr 2
    apply Nat.eq_of_testBit_eq
    intro j
    rw [testBit_clear_word, testBit_clear_word]
    cases S[bitset_index F].testBit j <;> cases decide (j < 16) <;>
      cases decide (F % 16 = j) <;> rfl

theorem set_clear_idempotent_witness :
    0x1A < 65536 ∧ bitset_index 0x1A < [0x0004, 0x0401].length ∧
    (∃ S1, bitset_set [0x0004, 0x0401] 0x1A = some S1 ∧ bitset_set S1 0x1A = some S1) ∧
    (∃ S1, bitset_clear [0x0004, 0x0401] 0x1A = some S1 ∧
      bitset_clear S1 0x1A = some S1) :=
  ⟨by decide, by decide,
    set_clear_idempotent [0x0004, 0x0401] 0x1A (by decide) (by decide)⟩

/-! ## C7: commutativity on distinct flags -/

/-- C7. For two different 16-bit flags `F1`, `F2` whose word indices are inside
`S` (same word or not) and `op1`, `op2` each one of `bitset_set`,
`bitset_clear`: `op1` on `F1` followed by `op2` on `F2` succeeds, and so does
`op2` on `F2` followed by `op1` on `F1`, with the same final storage. -/
theorem ops_commute (S : List Nat) (F1 F2 : Nat) (h1 : F1 < 65536) (h2 : F2 < 65536)
    (hne : F1 ≠ F2) (hi1 : bitset_index F1 < S.length) (hi2 : bitset_index F2 < S.length)
    (op1 op2 : List Nat → Nat → Option (List Nat))
    (ho1 : op1 = bitset_set ∨ op1 = bitset_clear)
    (ho2 : op2 = bitset_set ∨ op2 = bitset_clear) :
    ∃ T, (op1 S F1).bind (fun S1 => op2 S1 F2) = some T ∧
      (op2 S F2).bind (fun S2 => op1 S2 F1) = some T := by
  have hb : bitset_index F1 = bitset_index F2 → F1 % 16 ≠ F2 % 16 :=
    bit_ne_of_flag_ne F1 F2 h1 h2 hne
  rcases ho1 with e1 | e1 <;> rcases ho2 with e2 | e2 <;> subst e1 <;> subst e2
  · refine write_write_commute _ _ _ _ bitset_set_of_word bitset_set_of_word S F1 F2 hi1 hi2 ?_
    intro _ w
    apply Nat.eq_of_testBit_eq
    intro j
    simp only [testBit_set_word]
    cases w.testBit j <;> cases decide (j < 16) <;> cases decide (F1 % 16 = j) <;>
      cases decide (F2 % 16 = j) <;> rfl
  · refine write_write_commute _ _ _ _ bitset_set_of_word bitset_clear_of_word S F1 F2 hi1 hi2 ?_
    intro hi w
    apply Nat.eq_of_testBit_eq
    intro j
    simp only [testBit_set_word, testBit_clear_word]
    by_cases e1 : F1 % 16 = j
    · have e2 : F2 % 16 ≠ j := fun e => hb hi (e1.trans e.symm)
      simp [e1, e2]
    · simp only [e1, decide_False, Bool.or_false]
      cases w.testBit j <;> cases decide (j < 16) <;> cases decide (F2 % 16 = j) <;> rfl
  · refine write_write_commute _ _ _ _ bitset_clear_of_word bitset_set_of_word S F1 F2 hi1 hi2 ?_
    intro hi w
    apply Nat.eq_of_testBit_eq
    intro j
    simp only [testBit_set_word, testBit_clear_word]
    by_cases e2 : F2 % 16 = j
    · have e1 : F1 % 16 ≠ j := fun e => hb hi (e.trans e2.symm)
      simp [e1, e2]
    · simp only [e2, decide_False, Bool.or_false]
      cases w.testBit j <;> cases decide (j < 16) <;> cases decide (F1 % 16 = j) <;> rfl
  · refine write_write_commute _ _ _ _ bitset_clear_of_word bitset_clear_of_word S F1 F2
      hi1 hi2 ?_
    intro _ w
    apply Nat.eq_of_testBit_eq
    intro j
    simp only [testBit_clear_word]
    cases w.testBit j <;> cases decide (j < 16) <;> cases decide (F1 % 16 = j) <;>
      cases decide (F2 % 16 = j) <;> rfl

theorem ops_commute_witness :
    ∃ T, (bitset_set [0x0004, 0x0401] 0x1A).bind (fun S1 => bitset_clear S1 0x10) = some T ∧
      (bitset_clear [0x0004, 0x0401] 0x10).bind (fun S2 => bitset_set S2 0x1A) = some T :=
  ops_commute [0x0004, 0x0401] 0x1A 0x10 (by decide) (by decide) (by decide) (by decide)
    (by decide) bitset_set bitset_clear (Or.inl rfl) (Or.inr rfl)

/-! ## C8: decomposition of a flag identifier -/

theorem two_pow_inj_of_eq (a b : Nat) (h : 2 ^ a = 2 ^ b) : a = b :=
  Nat.pow_right_injective (Nat.le_refl 2) h

/-- C8. For every 16-bit flag `F`: `bitset_index F = F >> 4 = F / 16` is at most
4095, the bit index `F & 0xF = F mod 16` is at most 15, and
`(bitset_index F << 4) | (F & 0xF)` is `F`, the shifted word index staying below
`65536`. -/
theorem flag_decomposition (F : Nat) (hF : F < 65536) :
    bitset_index F = F >>> 4 ∧ F >>> 4 = F / 16 ∧ bitset_index F ≤ 4095 ∧
    F &&& 0xF = F % 16 ∧ F &&& 0xF ≤ 15 ∧
    bitset_index F <<< 4 < 65536 ∧
    (bitset_index F <<< 4) ||| (F &&& 0xF) = F := by
  have hi : bitset_index F = F / 16 := bitset_index_eq_div F hF
  have hk : F % 16 < 2 ^ 4 := by
    have := Nat.mod_lt F (show 0 < 16 by norm_num)
    norm_num; exact this
  have hsh : (F / 16) <<< 4 = 2 ^ 4 * (F / 16) := by
    rw [Nat.shiftLeft_eq, Nat.mul_comm]
  refine ⟨(shiftRight_four_eq_index F hF).symm, ?_, ?_, flag_and_eq_mod F, ?_, ?_, ?_⟩
  · rw [Nat.shiftRight_eq_div_pow]
  · rw [hi]; omega
  · rw [flag_and_eq_mod]; omega
  · rw [hi, hsh]; omega
  · rw [hi, flag_and_eq_mod, hsh, ← Nat.mul_add_lt_is_or hk]
    omega

theorem flag_decomposition_witness :
    0x1AC < 65536 ∧
    bitset_index 0x1AC = 0x1AC >>> 4 ∧ 0x1AC >>> 4 = 0x1AC / 16 ∧ bitset_index 0x1AC ≤ 4095 ∧
    0x1AC &&& 0xF = 0x1AC % 16 ∧ 0x1AC &&& 0xF ≤ 15 ∧
    bitset_index 0x1AC <<< 4 < 65536 ∧
    (bitset_index 0x1AC <<< 4) ||| (0x1AC &&& 0xF) = 0x1AC :=
  ⟨by decide, flag_decomposition 0x1AC (by decide)⟩

/-! ## C9: the encoding is a bijection -/

/-- C9. The map `F ↦ (bitset_index F, F & 0xF)` is a bijection from the 16-bit
values `0..65535` onto `{0..4095} × {0..15}`; two 16-bit flags with the same
word index and the same mask are equal; the 65536 flags have 65536 different
(word index, mask) pairs. -/
theorem encoding_bijective :
    Set.BijOn (fun F => (bitset_index F, F &&& 0xF)) {F | F < 65536}
      {p | p.1 < 4096 ∧ p.2 < 16} ∧
    (∀ F1 F2, F1 < 65536 → F2 < 65536 → bitset_index F1 = bitset_index F2 →
      bitset_mask F1 = bitset_mask F2 → F1 = F2) ∧
    ((Finset.range 65536).image (fun F => (bitset_index F, bitset_mask F))).card = 65536 := by
  have hinj : ∀ F1 F2, F1 < 65536 → F2 < 65536 → bitset_index F1 = bitset_index F2 →
      bitset_mask F1 = bitset_mask F2 → F1 = F2 := by
    intro F1 F2 h1 h2 hi hm
    rw [bitset_mask_eq_pow, bitset_mask_eq_pow] at hm
    have hb : F1 % 16 = F2 % 16 := two_pow_inj_of_eq _ _ hm
    rw [bitset_index_eq_div F1 h1, bitset_index_eq_div F2 h2] at hi
    omega
  refine ⟨⟨?_, ?_, ?_⟩, hinj, ?_⟩
  · intro F hF
    have hF2 : F < 65536 := hF
    show bitset_index F < 4096 ∧ F &&& 0xF < 16
    rw [bitset_index_eq_div F hF2, flag_and_eq_mod]
    omega
  · intro F1 h1 F2 h2 e
    have h1b : F1 < 65536 := h1
    have h2b : F2 < 65536 := h2
    have e1 : bitset_index F1 = bitset_index F2 := congrArg Prod.fst e
    have e2 : F1 &&& 0xF = F2 &&& 0xF := congrArg Prod.snd e
    rw [bitset_index_eq_div F1 h1b, bitset_index_eq_div F2 h2b] at e1
    rw [flag_and_eq_mod, flag_and_eq_mod] at e2
    omega
  · rintro ⟨i, b⟩ ⟨hi, hb⟩
    have hi2 : i < 4096 := hi
    have hb2 : b < 16 := hb
    have hF : 16 * i + b < 65536 := by omega
    refine ⟨16 * i + b, hF, ?_⟩
    show (bitset_index (16 * i + b), (16 * i + b) &&& 0xF) = (i, b)
    rw [bitset_index_eq_div _ hF, flag_and_eq_mod]
    congr 1 <;> omega
  · rw [Finset.card_image_of_injOn, Finset.card_range]
    intro F1 h1 F2 h2 e
    have h1b : F1 < 65536 := Finset.mem_range.mp h1
    have h2b : F2 < 65536 := Finset.mem_range.mp h2
    exact hinj F1 F2 h1b h2b (congrArg Prod.fst e) (congrArg Prod.snd e)

/-! ## C10: `bitset_mask` is a one-bit mask -/

/-- C10. For every 16-bit flag `F`: `bitset_mask F = 2 ^ (F mod 16)`; it is not
zero, exactly one of its bits is set (bit `F mod 16`), it is at most `0x8000`,
and the value `1u << (F & 0xF)` is below `65536`, so that neither the
`unsigned int` arithmetic nor the conversion to `uint16_t` changes it. -/
theorem bitset_mask_single_bit (F : Nat) (_hF : F < 65536) :
    bitset_mask F = 2 ^ (F % 16) ∧ bitset_mask F ≠ 0 ∧
    (∀ j, (bitset_mask F).testBit j = decide (j = F % 16)) ∧
    (∃! j, (bitset_mask F).testBit j = true) ∧
    bitset_mask F ≤ 0x8000 ∧
    (1 <<< (F &&& 0xF)) % UINT_MOD = 1 <<< (F &&& 0xF) ∧
    (1 <<< (F &&& 0xF)) % UINT_MOD < 65536 ∧
    bitset_mask F = 1 <<< (F &&& 0xF) := by
  have hk : F % 16 < 16 := Nat.mod_lt _ (by norm_num)
  have hle : 2 ^ (F % 16) ≤ 2 ^ 15 := Nat.pow_le_pow_right (by norm_num) (by omega)
  have h15 : (2 : Nat) ^ 15 = 32768 := by norm_num
  have hpos : 0 < 2 ^ (F % 16) := Nat.pos_pow_of_pos _ (by norm_num)
  have hbits : ∀ j, (bitset_mask F).testBit j = decide (j = F % 16) := by
    intro j
    rw [bitset_mask_eq_pow, Nat.testBit_two_pow]
    by_cases e : F % 16 = j
    · simp [e]
    · have e2 : ¬ j = F % 16 := fun h => e h.symm
      simp [e, e2]
  refine ⟨bitset_mask_eq_pow F, ?_, hbits, ?_, ?_, ?_, ?_, ?_⟩
  · rw [bitset_mask_eq_pow]; omega
  · refine ⟨F % 16, ?_, ?_⟩
    · show (bitset_mask F).testBit (F % 16) = true
      rw [hbits]; simp
    · intro j hj
      have hj2 : (bitset_mask F).testBit j = true := hj
      rw [hbits] at hj2
      exact of_decide_eq_true hj2
  · rw [bitset_mask_eq_pow]; omega
  · rw [flag_and_eq_mod, Nat.one_shiftLeft]
    apply Nat.mod_eq_of_lt
    unfold UINT_MOD; omega
  · rw [flag_and_eq_mod, Nat.one_shiftLeft]
    have : 2 ^ (F % 16) % UINT_MOD = 2 ^ (F % 16) := by
      apply Nat.mod_eq_of_lt
      unfold UINT_MOD; omega
    rw [this]; omega
  · rw [bitset_mask_eq_pow, flag_and_eq_mod, Nat.one_shiftLeft]

theorem bitset_mask_single_bit_witness :
    0x1AC < 65536 ∧
    bitset_mask 0x1AC = 2 ^ (0x1AC % 16) ∧ bitset_mask 0x1AC ≠ 0 ∧
    (∀ j, (bitset_mask 0x1AC).testBit j = decide (j = 0x1AC % 16)) ∧
    (∃! j, (bitset_mask 0x1AC).testBit j = true) ∧
    bitset_mask 0x1AC ≤ 0x8000 ∧
    (1 <<< (0x1AC &&& 0xF)) % UINT_MOD = 1 <<< (0x1AC &&& 0xF) ∧
    (1 <<< (0x1AC &&& 0xF)) % UINT_MOD < 65536 ∧
    bitset_mask 0x1AC = 1 <<< (0x1AC &&& 0xF) :=
  ⟨by decide, bitset_mask_single_bit 0x1AC (by decide)⟩

/-! ## C11: capacity of an n-word storage -/

/-- Two 16-bit flags with the same word index and the same mask are equal. -/
theorem index_mask_inj (F1 F2 : Nat) (h1 : F1 < 65536) (h2 : F2 < 65536)
    (hi : bitset_index F1 = bitset_index F2) (hm : bitset_mask F1 = bitset_mask F2) :
    F1 = F2 := by
  rw [bitset_mask_eq_pow, bitset_mask_eq_pow] at hm
  have hb : F1 % 16 = F2 % 16 := Nat.pow_right_injective (Nat.le_refl 2) hm
  rw [bitset_index_eq_div F1 h1, bitset_index_eq_div F2 h2] at hi
  omega

/-- The operations succeed exactly on the flags whose word index is inside the
storage. -/
theorem bitset_get_isSome_iff (S : List Nat) (F : Nat) :
    (bitset_get S F).isSome = true ↔ bitset_index F < S.length := by
  constructor
  · intro h
    by_contra hlt
    have hnone : S[bitset_index F]? = none := List.getElem?_eq_none (by omega)
    unfold bitset_get bitset_word at h
    rw [hnone] at h
    exact Bool.noConfusion h
  · intro h
    rw [bitset_get_eq S F h]; rfl

/-- C11. For a 16-bit flag `F` and a word count `n ≤ 4096`: `bitset_index F < n`
exactly when `F < 16 * n`, and `bitset_get` on an `n`-word storage is defined
exactly for those flags. With 30 words the flags in range are the ids
`0..479`, they have 480 different (word index, mask) pairs, and id 480
(`0x1E0`, word index 30) is the first one out of range. -/
theorem capacity (F n : Nat) (hF : F < 65536) (_hn : n ≤ 4096) :
    (bitset_index F < n ↔ F < 16 * n) ∧
    (∀ S : List Nat, S.length = n → ((bitset_get S F).isSome = true ↔ F < 16 * n)) ∧
    (∀ G, G < 65536 → (bitset_index G < 30 ↔ G < 480)) ∧
    ((Finset.range 480).image (fun G => (bitset_index G, bitset_mask G))).card = 480 ∧
    (0x1E0 = 480 ∧ bitset_index 0x1E0 = 30 ∧ ¬ bitset_index 0x1E0 < 30) ∧
    (∀ G, G < 0x1E0 → bitset_index G < 30) := by
  have key : ∀ G m, G < 65536 → (bitset_index G < m ↔ G < 16 * m) := by
    intro G m hG
    rw [bitset_index_eq_div G hG]
    omega
  refine ⟨key F n hF, ?_, ?_, ?_, ⟨by norm_num, by decide, by decide⟩, ?_⟩
  · intro S hS
    rw [bitset_get_isSome_iff, hS]
    exact key F n hF
  · intro G hG
    exact key G 30 hG
  · rw [Finset.card_image_of_injOn, Finset.card_range]
    intro F1 h1 F2 h2 e
    have h1b : F1 < 480 := Finset.mem_range.mp h1
    have h2b : F2 < 480 := Finset.mem_range.mp h2
    exact index_mask_inj F1 F2 (by omega) (by omega) (congrArg Prod.fst e)
      (congrArg Prod.snd e)
  · intro G hG
    exact (key G 30 (by omega)).mpr (by omega)

theorem capacity_witness :
    0x1DF < 65536 ∧ 30 ≤ 4096 ∧
    (bitset_index 0x1DF < 30 ↔ 0x1DF < 16 * 30) ∧
    (∀ S : List Nat, S.length = 30 → ((bitset_get S 0x1DF).isSome = true ↔ 0x1DF < 16 * 30)) ∧
    (∀ G, G < 65536 → (bitset_index G < 30 ↔ G < 480)) ∧
    ((Finset.range 480).image (fun G => (bitset_index G, bitset_mask G))).card = 480 ∧
    (0x1E0 = 480 ∧ bitset_index 0x1E0 = 30 ∧ ¬ bitset_index 0x1E0 < 30) ∧
    (∀ G, G < 0x1E0 → bitset_index G < 30) :=
  ⟨by decide, by decide, capacity 0x1DF 30 (by decide) (by decide)⟩

/-! ## C12: in-bounds access under the precondition -/

theorem bitset_get_of_word (S : List Nat) (F w : Nat) (hw : S[bitset_index F]? = some w) :
    bitset_get S F = some (w.testBit (F % 16), S) := by
  unfold bitset_get bitset_word
  rw [hw]
  simp only [and_mask_ne_zero]

/-- After a write to any word of `S`, every flag in range of `S` is still in
range and the three operations are defined on it. -/
theorem defined_after_write (S : List Nat) (i v G : Nat) (hG : bitset_index G < S.length) :
    bitset_index G < (S.set i v).length ∧
    (bitset_get (S.set i v) G).isSome = true ∧
    (bitset_set (S.set i v) G).isSome = true ∧
    (bitset_clear (S.set i v) G).isSome = true := by
  have h : bitset_index G < (S.set i v).length := by
    rw [List.length_set]; exact hG
  refine ⟨h, ?_, ?_, ?_⟩
  · rw [bitset_get_eq _ G h]; rfl
  · rw [bitset_set_eq _ G h]; rfl
  · rw [bitset_clear_eq _ G h]; rfl

/-- C12. For a storage `S` and a 16-bit flag `F` with `bitset_index F < length S`:
the word `bitset_word S F` exists; `bitset_get`, `bitset_set` and `bitset_clear`
all take the in-bounds branch; `bitset_set` and `bitset_clear` keep the length
and every word at an index other than `bitset_index F`, so that every flag in
range of `S` is in range of the result and all three operations are defined on
it; and on any storage `T` with the same word at index `bitset_index F` the
three operations give the same answer and the same new word, so no other index
is read. -/
theorem in_bounds_access (S : List Nat) (F : Nat) (_hF : F < 65536)
    (h : bitset_index F < S.length) :
    (∃ w, bitset_word S F = some w) ∧
    (∃ b, bitset_get S F = some (b, S)) ∧
    (∃ S1, bitset_set S F = some S1 ∧ S1.length = S.length ∧
      (∀ i, i ≠ bitset_index F → S1[i]? = S[i]?) ∧
      ∀ G, bitset_index G < S.length → bitset_index G < S1.length ∧
        (bitset_get S1 G).isSome = true ∧ (bitset_set S1 G).isSome = true ∧
        (bitset_clear S1 G).isSome = true) ∧
    (∃ S1, bitset_clear S F = some S1 ∧ S1.length = S.length ∧
      (∀ i, i ≠ bitset_index F → S1[i]? = S[i]?) ∧
      ∀ G, bitset_index G < S.length → bitset_index G < S1.length ∧
        (bitset_get S1 G).isSome = true ∧ (bitset_set S1 G).isSome = true ∧
        (bitset_clear S1 G).isSome = true) ∧
    (∀ T : List Nat, T[bitset_index F]? = S[bitset_index F]? →
      (bitset_get T F).map Prod.fst = (bitset_get S F).map Prod.fst ∧
      (bitset_set T F).bind (fun T1 => T1[bitset_index F]?)
        = (bitset_set S F).bind (fun S1 => S1[bitset_index F]?) ∧
      (bitset_clear T F).bind (fun T1 => T1[bitset_index F]?)
        = (bitset_clear S F).bind (fun S1 => S1[bitset_index F]?)) := by
  have hw : S[bitset_index F]? = some S[bitset_index F] := List.getElem?_eq_getElem h
  refine ⟨⟨_, bitset_word_eq S F h⟩, ⟨_, bitset_get_eq S F h⟩,
    ⟨_, bitset_set_eq S F h, List.length_set _ _ _, ?_, ?_⟩,
    ⟨_, bitset_clear_eq S F h, List.length_set _ _ _, ?_, ?_⟩, ?_⟩
  · intro i hi
    exact List.getElem?_set_ne (fun e => hi e.symm)
  · intro G hG
    exact defined_after_write S _ _ G hG
  · intro i hi
    exact List.getElem?_set_ne (fun e => hi e.symm)
  · intro G hG
    exact defined_after_write S _ _ G hG
  · intro T hT
    rw [hw] at hT
    have hTlen : bitset_index F < T.length := (List.getElem?_eq_some.mp hT).1
    rw [bitset_get_of_word T F _ hT, bitset_get_of_word S F _ hw,
      bitset_set_of_word T F _ hT, bitset_set_of_word S F _ hw,
      bitset_clear_of_word T F _ hT, bitset_clear_of_word S F _ hw]
    simp only [Option.map_some', Option.some_bind, List.getElem?_set_self hTlen,
      List.getElem?_set_self h, and_self]

theorem in_bounds_access_witness :
    0x1A < 65536 ∧ bitset_index 0x1A < [0x0004, 0x0401].length ∧
    (∃ w, bitset_word [0x0004, 0x0401] 0x1A = some w) ∧
    (∃ b, bitset_get [0x0004, 0x0401] 0x1A = some (b, [0x0004, 0x0401])) ∧
    (∃ S1, bitset_set [0x0004, 0x0401] 0x1A = some S1 ∧ S1.length = [0x0004, 0x0401].length ∧
      (∀ i, i ≠ bitset_index 0x1A → S1[i]? = [0x0004, 0x0401][i]?) ∧
      ∀ G, bitset_index G < [0x0004, 0x0401].length → bitset_index G < S1.length ∧
        (bitset_get S1 G).isSome = true ∧ (bitset_set S1 G).isSome = true ∧
        (bitset_clear S1 G).isSome = true) ∧
    (∃ S1, bitset_clear [0x0004, 0x0401] 0x1A = some S1 ∧ S1.length = [0x0004, 0x0401].length ∧
      (∀ i, i ≠ bitset_index 0x1A → S1[i]? = [0x0004, 0x0401][i]?) ∧
      ∀ G, bitset_index G < [0x0004, 0x0401].length → bitset_index G < S1.length ∧
        (bitset_get S1 G).isSome = true ∧ (bitset_set S1 G).isSome = true ∧
        (bitset_clear S1 G).isSome = true) ∧
    (∀ T : List Nat, T[bitset_index 0x1A]? = [0x0004, 0x0401][bitset_index 0x1A]? →
      (bitset_get T 0x1A).map Prod.fst = (bitset_get [0x0004, 0x0401] 0x1A).map Prod.fst ∧
      (bitset_set T 0x1A).bind (fun T1 => T1[bitset_index 0x1A]?)
        = (bitset_set [0x0004, 0x0401] 0x1A).bind (fun S1 => S1[bitset_index 0x1A]?) ∧
      (bitset_clear T 0x1A).bind (fun T1 => T1[bitset_index 0x1A]?)
        = (bitset_clear [0x0004, 0x0401] 0x1A).bind (fun S1 => S1[bitset_index 0x1A]?)) :=
  ⟨by decide, by decide, in_bounds_access [0x0004, 0x0401] 0x1A (by decide) (by decide)⟩

/-! ## C13: the documented decode examples -/

/-- C13. The three examples of the header: flag `0x75` is word 7, bit 5; flag
`0x61` is word 6, bit 1; flag `0x1AC` is word 26, bit 12. -/
theorem decode_examples :
    (bitset_index 0x75 = 7 ∧ bitset_mask 0x75 = 1 <<< 5) ∧
    (bitset_index 0x61 = 6 ∧ bitset_mask 0x61 = 1 <<< 1) ∧
    (bitset_index 0x1AC = 26 ∧ bitset_mask 0x1AC = 1 <<< 12) := by
  decide

/-! ## C14: the end-to-end scenario -/

/-- C14. From the 2-word storage `[0, 0]`: `bitset_get` of flag `0x02` is
false; `bitset_set` of `0x02` gives `[0x0004, 0]`, on which `bitset_get` of
`0x02` is true, with `bitset_index 0x02 = 0`; `bitset_index 0x1A = 1`; a
following `bitset_set` of `0x1A` gives `[0x0004, 0x0400]`, on which `bitset_get`
of `0x1A` is true, word 1 being `0x0400 = 2 ^ 10` and word 0 still `0x0004`. -/
theorem end_to_end_scenario :
    bitset_get [0, 0] 0x02 = some (false, [0, 0]) ∧
    bitset_set [0, 0] 0x02 = some [0x0004, 0] ∧
    bitset_get [0x0004, 0] 0x02 = some (true, [0x0004, 0]) ∧
    bitset_index 0x02 = 0 ∧
    bitset_word [0x0004, 0] 0x02 = some 0x0004 ∧
    bitset_index 0x1A = 1 ∧
    bitset_set [0x0004, 0] 0x1A = some [0x0004, 0x0400] ∧
    bitset_get [0x0004, 0x0400] 0x1A = some (true, [0x0004, 0x0400]) ∧
    bitset_word [0x0004, 0x0400] 0x1A = some 0x0400 ∧
    0x0400 = 2 ^ 10 ∧
    bitset_word [0x0004, 0x0400] 0x02 = some 0x0004 := by
  decide

/-! ## C15: an operation changes storage exactly when it changes the flag -/

theorem set_word_eq_iff (w F : Nat) (hw : w < 65536) :
    to_u16 (w ||| bitset_mask F) = w ↔ w.testBit (F % 16) = true := by
  have hk : F % 16 < 16 := Nat.mod_lt _ (by norm_num)
  constructor
  · intro e
    have h := testBit_set_word w F (F % 16)
    rw [e] at h
    rw [h]; simp [hk]
  · intro hb
    apply Nat.eq_of_testBit_eq
    intro j
    rw [testBit_set_word]
    by_cases hj : j < 16
    · by_cases e : F % 16 = j
      · subst e; simp [hk, hb]
      · simp [hj, e]
    · have hwj := testBit_of_lt_u16 w j hw (by omega)
      simp [hj, hwj]

theorem clear_word_eq_iff (w F : Nat) (hw : w < 65536) :
    to_u16 (w &&& int_to_u16 (int_not (bitset_mask F : Int))) = w
      ↔ w.testBit (F % 16) = false := by
  have hk : F % 16 < 16 := Nat.mod_lt _ (by norm_num)
  constructor
  · intro e
    have h := testBit_clear_word w F (F % 16)
    rw [e] at h
    rw [h]; simp
  · intro hb
    apply Nat.eq_of_testBit_eq
    intro j
    rw [testBit_clear_word]
    by_cases hj : j < 16
    · by_cases e : F % 16 = j
      · subst e; simp [hb]
      · simp [hj, e]
    · have hwj := testBit_of_lt_u16 w j hw (by omega)
      simp [hj, hwj]

/-- Replacing a word gives the same list exactly when the new word is the old
one. -/
theorem set_eq_self_iff (S : List Nat) (i v : Nat) (h : i < S.length) :
    S.set i v = S ↔ v = S[i] := by
  constructor
  · intro e
    have h1 : (S.set i v)[i]? = some v := List.getElem?_set_self h
    rw [e, List.getElem?_eq_getElem h] at h1
    exact (Option.some.inj h1).symm
  · intro e
    rw [e]
    apply List.ext_getElem?
    intro j
    by_cases hj : i = j
    · subst hj
      rw [List.getElem?_set_self h, List.getElem?_eq_getElem h]
    · rw [List.getElem?_set_ne hj]

/-- C15. For a storage `S` of 16-bit words and a 16-bit flag `F` whose word
index is inside `S`, with `b` the answer of `bitset_get S F`: the storage after
`bitset_set S F` is `S` exactly when `b` is true, and the storage after
`bitset_clear S F` is `S` exactly when `b` is false. -/
theorem changes_iff_flag_changes (S : List Nat) (F : Nat) (hS : is_u16_array S)
    (_hF : F < 65536) (h : bitset_index F < S.length) :
    ∃ b S1 S2, bitset_get S F = some (b, S) ∧ bitset_set S F = some S1 ∧
      bitset_clear S F = some S2 ∧ (S1 = S ↔ b = true) ∧ (S2 = S ↔ b = false) := by
  have hw : S[bitset_index F] < 65536 := hS _ (List.getElem_mem h)
  refine ⟨_, _, _, bitset_get_eq S F h, bitset_set_eq S F h, bitset_clear_eq S F h, ?_, ?_⟩
  · rw [set_eq_self_iff S _ _ h, ← set_word_eq_iff _ F hw]
  · rw [set_eq_self_iff S _ _ h, ← clear_word_eq_iff _ F hw]

theorem changes_iff_flag_changes_witness :
    is_u16_array [0x0004, 0x0401] ∧ 0x1A < 65536 ∧
    bitset_index 0x1A < [0x0004, 0x0401].length ∧
    ∃ b S1 S2, bitset_get [0x0004, 0x0401] 0x1A = some (b, [0x0004, 0x0401]) ∧
      bitset_set [0x0004, 0x0401] 0x1A = some S1 ∧
      bitset_clear [0x0004, 0x0401] 0x1A = some S2 ∧
      (S1 = [0x0004, 0x0401] ↔ b = true) ∧ (S2 = [0x0004, 0x0401] ↔ b = false) :=
  ⟨by decide, by decide, by decide,
    changes_iff_flag_changes [0x0004, 0x0401] 0x1A (by decide) (by decide) (by decide)⟩

/-! ## C16: set and clear undo each other -/

theorem clear_set_word (w F : Nat) (hw : w < 65536) (hb : w.testBit (F % 16) = false) :
    to_u16 (to_u16 (w ||| bitset_mask F) &&& int_to_u16 (int_not (bitset_mask F : Int)))
      = w := by
  apply Nat.eq_of_testBit_eq
  intro j
  rw [testBit_clear_word, testBit_set_word]
  by_cases hj : j < 16
  · by_cases e : F % 16 = j
    · subst e; simp [hb]
    · simp [hj, e]
  · have hwj := testBit_of_lt_u16 w j hw (by omega)
    simp [hj, hwj]

theorem set_clear_word (w F : Nat) (hw : w < 65536) (hb : w.testBit (F % 16) = true) :
    to_u16 (to_u16 (w &&& int_to_u16 (int_not (bitset_mask F : Int))) ||| bitset_mask F)
      = w := by
  have hk : F % 16 < 16 := Nat.mod_lt _ (by norm_num)
  apply Nat.eq_of_testBit_eq
  intro j
  rw [testBit_set_word, testBit_clear_word]
  by_cases hj : j < 16
  · by_cases e : F % 16 = j
    · subst e; simp [hk, hb]
    · simp [hj, e]
  · have hwj := testBit_of_lt_u16 w j hw (by omega)
    simp [hj, hwj]

/-- C16. For a storage `S` of 16-bit words (all-zero or not) and a 16-bit flag
`F` whose word index is inside `S`, with `b` the answer of `bitset_get S F`: if
`b` is false, `bitset_set S F` followed by `bitset_clear` of `F` succeeds and
gives `S` back; if `b` is true, `bitset_clear S F` followed by `bitset_set` of
`F` succeeds and gives `S` back. -/
theorem set_clear_undo (S : List Nat) (F : Nat) (hS : is_u16_array S)
    (_hF : F < 65536) (h : bitset_index F < S.length) :
    ∃ b, bitset_get S F = some (b, S) ∧
      (b = false → (bitset_set S F).bind (fun S1 => bitset_clear S1 F) = some S) ∧
      (b = true → (bitset_clear S F).bind (fun S1 => bitset_set S1 F) = some S) := by
  have hw : S[bitset_index F] < 65536 := hS _ (List.getElem_mem h)
  refine ⟨_, bitset_get_eq S F h, ?_, ?_⟩
  · intro hb
    rw [bitset_set_eq S F h, Option.some_bind,
      bitset_clear_of_word _ F _ (List.getElem?_set_self h), List.set_set,
      clear_set_word _ F hw hb]
    exact congrArg some ((set_eq_self_iff S _ _ h).mpr rfl)
  · intro hb
    rw [bitset_clear_eq S F h, Option.some_bind,
      bitset_set_of_word _ F _ (List.getElem?_set_self h), List.set_set,
      set_clear_word _ F hw hb]
    exact congrArg some ((set_eq_self_iff S _ _ h).mpr rfl)

theorem set_clear_undo_witness :
    is_u16_array [0x0004, 0x0401] ∧ 0x1A < 65536 ∧
    bitset_index 0x1A < [0x0004, 0x0401].length ∧
    ∃ b, bitset_get [0x0004, 0x0401] 0x1A = some (b, [0x0004, 0x0401]) ∧
      (b = false → (bitset_set [0x0004, 0x0401] 0x1A).bind (fun S1 => bitset_clear S1 0x1A)
        = some [0x0004, 0x0401]) ∧
      (b = true → (bitset_clear [0x0004, 0x0401] 0x1A).bind (fun S1 => bitset_set S1 0x1A)
        = some [0x0004, 0x0401]) :=
  ⟨by decide, by decide, by decide,
    set_clear_undo [0x0004, 0x0401] 0x1A (by decide) (by decide) (by decide)⟩

/-! ## C17: storage is determined by its flags -/

/-- The flag `16 * i + j` addresses bit `j` of word `i`. -/
theorem bitset_get_flag_of (S : List Nat) (i j : Nat) (hi : i < S.length) (h4 : i < 4096)
    (hj : j < 16) :
    16 * i + j < 65536 ∧ bitset_index (16 * i + j) = i ∧
    (bitset_get S (16 * i + j)).map Prod.fst = some (S[i].testBit j) := by
  have hF : 16 * i + j < 65536 := by omega
  have hidx : bitset_index (16 * i + j) = i := by
    rw [bitset_index_eq_div _ hF]; omega
  have hbit : (16 * i + j) % 16 = j := by omega
  have hw : S[bitset_index (16 * i + j)]? = some S[i] := by
    rw [hidx]; exact List.getElem?_eq_getElem hi
  refine ⟨hF, hidx, ?_⟩
  rw [bitset_get_of_word S _ _ hw, hbit]; rfl

/-- Two storages of 16-bit words of the same length, at most 4096, on which
`bitset_get` answers alike for every 16-bit flag in range, are equal. -/
theorem storage_ext_of_get (S1 S2 : List Nat) (hlen : S1.length = S2.length)
    (hn : S1.length ≤ 4096) (hw1 : is_u16_array S1) (hw2 : is_u16_array S2)
    (hget : ∀ F, F < 65536 → bitset_index F < S1.length →
      (bitset_get S1 F).map Prod.fst = (bitset_get S2 F).map Prod.fst) :
    S1 = S2 := by
  apply List.ext_getElem hlen
  intro i h1 h2
  apply Nat.eq_of_testBit_eq
  intro j
  by_cases hj : j < 16
  · obtain ⟨hF, hidx, g1⟩ := bitset_get_flag_of S1 i j h1 (by omega) hj
    obtain ⟨_, _, g2⟩ := bitset_get_flag_of S2 i j h2 (by omega) hj
    have e := hget (16 * i + j) hF (by rw [hidx]; exact h1)
    rw [g1, g2] at e
    exact Option.some.inj e
  · rw [testBit_of_lt_u16 _ j (hw1 _ (List.getElem_mem h1)) (by omega),
      testBit_of_lt_u16 _ j (hw2 _ (List.getElem_mem h2)) (by omega)]

/-- C17. For a storage `S1` of 16-bit words of length at most 4096: every
storage `S2` of 16-bit words of the same length on which `bitset_get` answers
as on `S1` for every 16-bit flag in range is `S1`, word for word; and if
`bitset_get` answers false on `S1` for every 16-bit flag in range, every word of
`S1` is zero. -/
theorem storage_determined_by_flags (S1 : List Nat) (hn : S1.length ≤ 4096)
    (hw1 : is_u16_array S1) :
    (∀ S2 : List Nat, S1.length = S2.length → is_u16_array S2 →
      (∀ F, F < 65536 → bitset_index F < S1.length →
        (bitset_get S1 F).map Prod.fst = (bitset_get S2 F).map Prod.fst) →
      S1 = S2 ∧ ∀ i : Nat, S1[i]? = S2[i]?) ∧
    ((∀ F, F < 65536 → bitset_index F < S1.length →
        (bitset_get S1 F).map Prod.fst = some false) →
      ∀ w ∈ S1, w = 0) := by
  constructor
  · intro S2 hlen hw2 hget
    have e := storage_ext_of_get S1 S2 hlen hn hw1 hw2 hget
    exact ⟨e, fun i => by rw [e]⟩
  · intro hget w hmem
    obtain ⟨i, hi, rfl⟩ := List.mem_iff_getElem.mp hmem
    apply Nat.eq_of_testBit_eq
    intro j
    rw [Nat.zero_testBit]
    by_cases hj : j < 16
    · obtain ⟨hF, hidx, g1⟩ := bitset_get_flag_of S1 i j hi (by omega) hj
      have e := hget (16 * i + j) hF (by rw [hidx]; exact hi)
      rw [g1] at e
      exact Option.some.inj e
    · exact testBit_of_lt_u16 _ j (hw1 _ (List.getElem_mem hi)) (by omega)

theorem storage_determined_by_flags_witness :
    [0x0004, 0x0401].length ≤ 4096 ∧ is_u16_array [0x0004, 0x0401] ∧
    (∀ S2 : List Nat, [0x0004, 0x0401].length = S2.length → is_u16_array S2 →
      (∀ F, F < 65536 → bitset_index F < [0x0004, 0x0401].length →
        (bitset_get [0x0004, 0x0401] F).map Prod.fst = (bitset_get S2 F).map Prod.fst) →
      [0x0004, 0x0401] = S2 ∧ ∀ i : Nat, [0x0004, 0x0401][i]? = S2[i]?) ∧
    ((∀ F, F < 65536 → bitset_index F < [0x0004, 0x0401].length →
        (bitset_get [0x0004, 0x0401] F).map Prod.fst = some false) →
      ∀ w ∈ [0x0004, 0x0401], w = 0) :=
  ⟨by decide, by decide, storage_determined_by_flags [0x0004, 0x0401] (by decide) (by decide)⟩

/-! ## C18: the complement in `bitset_clear` stays within 16 bits -/

/-- Bits of a number whose bit `k` was removed arithmetically. -/
theorem testBit_drop_bit (w k j : Nat) :
    (2 ^ (k + 1) * (w / 2 ^ (k + 1)) + w % 2 ^ k).testBit j
      = (w.testBit j && !decide (k = j)) := by
  have hlo : w % 2 ^ k < 2 ^ (k + 1) := by
    have h1 : w % 2 ^ k < 2 ^ k := Nat.mod_lt _ (Nat.two_pow_pos k)
    have h2 : 2 ^ k ≤ 2 ^ (k + 1) := Nat.pow_le_pow_right (by norm_num) (by omega)
    omega
  rw [Nat.testBit_mul_pow_two_add _ hlo]
  by_cases hj : j < k + 1
  · rw [if_pos hj, Nat.testBit_mod_two_pow]
    by_cases e : k = j
    · have hjk : ¬ j < k := by omega
      simp [e]
    · have hjk : j < k := by omega
      simp [e, hjk]
  · rw [if_neg hj, ← Nat.shiftRight_eq_div_pow, Nat.testBit_shiftRight]
    have e : ¬ k = j := by omega
    have e2 : k + 1 + (j - (k + 1)) = j := by omega
    simp [e, e2]

/-- A number with bit `k` set, minus `2 ^ k`. -/
theorem sub_two_pow_of_testBit (w k : Nat) (hb : w.testBit k = true) :
    2 ^ k ≤ w ∧ w - 2 ^ k = 2 ^ (k + 1) * (w / 2 ^ (k + 1)) + w % 2 ^ k := by
  have h1 : 2 ^ k * (w / 2 ^ k) + w % 2 ^ k = w := Nat.div_add_mod w (2 ^ k)
  have h2 : 2 * (w / 2 ^ k / 2) + w / 2 ^ k % 2 = w / 2 ^ k := Nat.div_add_mod _ 2
  have h3 : w / 2 ^ k / 2 = w / 2 ^ (k + 1) := by
    rw [Nat.div_div_eq_div_mul, Nat.pow_succ]
  have h4 : w / 2 ^ k % 2 = 1 := by
    rw [Nat.testBit_to_div_mod] at hb
    exact of_decide_eq_true hb
  rw [h3, h4] at h2
  have h5 : 2 ^ k * (w / 2 ^ k) = 2 ^ (k + 1) * (w / 2 ^ (k + 1)) + 2 ^ k := by
    rw [← h2, Nat.pow_succ]; ring
  rw [h5] at h1
  omega

/-- Bits of a 16-bit word ANDed with the converted complement of the mask. -/
theorem testBit_and_not_mask (w F j : Nat) (hw : w < 65536) :
    (w &&& int_to_u16 (int_not (bitset_mask F : Int))).testBit j
      = (w.testBit j && !decide (F % 16 = j)) := by
  have hk : F % 16 < 16 := Nat.mod_lt _ (by norm_num)
  have h1 : 2 ^ (F % 16) < 2 ^ 16 := Nat.pow_lt_pow_right (by norm_num) hk
  rw [not_mask_eq, Nat.testBit_and, Nat.testBit_two_pow_sub_succ h1, Nat.testBit_two_pow]
  by_cases hj : j < 16
  · simp [hj]
  · have hwj := testBit_of_lt_u16 w j hw (by omega)
    simp [hwj]

/-- C18. For a 16-bit flag `F` and a 16-bit word `w`: the complement of the mask
is taken in `int`, where it is the negative number `-2 ^ (F mod 16) - 1`, inside
the range of a 32-bit `int`; converted to `uint16_t` it is
`0xFFFF - 2 ^ (F mod 16)`, which is `0xFFFF XOR mask`; the word
`w & (uint16_t)~mask` is a 16-bit value, so storing it changes nothing, and it
is `w - 2 ^ (F mod 16)` when bit `F mod 16` of `w` is 1 and `w` otherwise; this is
the word `bitset_clear` stores. -/
theorem clear_complement_16bit (F w : Nat) (_hF : F < 65536) (hw : w < 65536) :
    int_not (bitset_mask F : Int) = -((2 ^ (F % 16) : Nat) : Int) - 1 ∧
    int_not (bitset_mask F : Int) < 0 ∧ -2147483648 ≤ int_not (bitset_mask F : Int) ∧
    int_to_u16 (int_not (bitset_mask F : Int)) = 0xFFFF - 2 ^ (F % 16) ∧
    int_to_u16 (int_not (bitset_mask F : Int)) = 0xFFFF ^^^ bitset_mask F ∧
    int_to_u16 (int_not (bitset_mask F : Int)) < 65536 ∧
    w &&& int_to_u16 (int_not (bitset_mask F : Int)) < 65536 ∧
    to_u16 (w &&& int_to_u16 (int_not (bitset_mask F : Int)))
      = w &&& int_to_u16 (int_not (bitset_mask F : Int)) ∧
    (w.testBit (F % 16) = true →
      2 ^ (F % 16) ≤ w ∧
      w &&& int_to_u16 (int_not (bitset_mask F : Int)) = w - 2 ^ (F % 16)) ∧
    (w.testBit (F % 16) = false →
      w &&& int_to_u16 (int_not (bitset_mask F : Int)) = w) ∧
    bitset_clear [w] (F % 16)
      = some [if w.testBit (F % 16) = true then w - 2 ^ (F % 16) else w] := by
  have hk : F % 16 < 16 := Nat.mod_lt _ (by norm_num)
  have hp : 2 ^ (F % 16) < 2 ^ 16 := Nat.pow_lt_pow_right (by norm_num) hk
  have h16 : (2 : Nat) ^ 16 = 65536 := by norm_num
  have hpos : 0 < 2 ^ (F % 16) := Nat.two_pow_pos _
  have hval : int_to_u16 (int_not (bitset_mask F : Int)) = 0xFFFF - 2 ^ (F % 16) := by
    rw [not_mask_eq]; omega
  have hle : w &&& int_to_u16 (int_not (bitset_mask F : Int)) < 65536 :=
    Nat.lt_of_le_of_lt Nat.and_le_left hw
  have hset : w.testBit (F % 16) = true →
      2 ^ (F % 16) ≤ w ∧
      w &&& int_to_u16 (int_not (bitset_mask F : Int)) = w - 2 ^ (F % 16) := by
    intro hb
    obtain ⟨h1, h2⟩ := sub_two_pow_of_testBit w (F % 16) hb
    refine ⟨h1, ?_⟩
    rw [h2]
    apply Nat.eq_of_testBit_eq
    intro j
    rw [testBit_and_not_mask w F j hw, testBit_drop_bit]
  have hclr : w.testBit (F % 16) = false →
      w &&& int_to_u16 (int_not (bitset_mask F : Int)) = w := by
    intro hb
    apply Nat.eq_of_testBit_eq
    intro j
    rw [testBit_and_not_mask w F j hw]
    by_cases e : F % 16 = j
    · subst e; simp [hb]
    · simp [e]
  refine ⟨?_, ?_, ?_, hval, ?_, ?_, hle, to_u16_of_lt _ hle, hset, hclr, ?_⟩
  · rw [bitset_mask_eq_pow]; rfl
  · rw [bitset_mask_eq_pow]; unfold int_not; omega
  · rw [bitset_mask_eq_pow]; unfold int_not; omega
  · apply Nat.eq_of_testBit_eq
    intro j
    have e : (0xFFFF : Nat) = 2 ^ 16 - 1 := by norm_num
    rw [not_mask_eq, bitset_mask_eq_pow, Nat.testBit_two_pow_sub_succ hp, Nat.testBit_xor, e,
      Nat.testBit_two_pow_sub_one, Nat.testBit_two_pow]
    by_cases hj : j < 16
    · simp [hj]
    · have hjk : ¬ F % 16 = j := by omega
      simp [hj, hjk]
  · rw [hval]; omega
  · have hmm : F % 16 % 16 = F % 16 := by omega
    have hmask : bitset_mask (F % 16) = bitset_mask F := by
      rw [bitset_mask_eq_pow, bitset_mask_eq_pow, hmm]
    have hidx : bitset_index (F % 16) = 0 := by
      rw [bitset_index_eq_div _ (by omega)]; omega
    have hw0 : [w][bitset_index (F % 16)]? = some w := by rw [hidx]; rfl
    rw [bitset_clear_of_word [w] (F % 16) w hw0, hidx, hmask, to_u16_of_lt _ hle]
    by_cases hb : w.testBit (F % 16) = true
    · rw [if_pos hb, (hset hb).2]; rfl
    · have hb2 : w.testBit (F % 16) = false := by simpa using hb
      rw [if_neg hb, hclr hb2]; rfl

theorem clear_complement_16bit_witness :
    0x1AC < 65536 ∧ 0x1234 < 65536 ∧
    int_not (bitset_mask 0x1AC : Int) = -((2 ^ (0x1AC % 16) : Nat) : Int) - 1 ∧
    int_not (bitset_mask 0x1AC : Int) < 0 ∧
    -2147483648 ≤ int_not (bitset_mask 0x1AC : Int) ∧
    int_to_u16 (int_not (bitset_mask 0x1AC : Int)) = 0xFFFF - 2 ^ (0x1AC % 16) ∧
    int_to_u16 (int_not (bitset_mask 0x1AC : Int)) = 0xFFFF ^^^ bitset_mask 0x1AC ∧
    int_to_u16 (int_not (bitset_mask 0x1AC : Int)) < 65536 ∧
    0x1234 &&& int_to_u16 (int_not (bitset_mask 0x1AC : Int)) < 65536 ∧
    to_u16 (0x1234 &&& int_to_u16 (int_not (bitset_mask 0x1AC : Int)))
      = 0x1234 &&& int_to_u16 (int_not (bitset_mask 0x1AC : Int)) ∧
    (Nat.testBit 0x1234 (0x1AC % 16) = true →
      2 ^ (0x1AC % 16) ≤ 0x1234 ∧
      0x1234 &&& int_to_u16 (int_not (bitset_mask 0x1AC : Int)) = 0x1234 - 2 ^ (0x1AC % 16)) ∧
    (Nat.testBit 0x1234 (0x1AC % 16) = false →
      0x1234 &&& int_to_u16 (int_not (bitset_mask 0x1AC : Int)) = 0x1234) ∧
    bitset_clear [0x1234] (0x1AC % 16)
      = some [if Nat.testBit 0x1234 (0x1AC % 16) = true then 0x1234 - 2 ^ (0x1AC % 16)
          else 0x1234] :=
  ⟨by decide, by decide, clear_complement_16bit 0x1AC 0x1234 (by decide) (by decide)⟩

end OotBitset
